import Mathlib

/-!
Shallow embedding of the trade-report program (src/app.py) and proofs about it.

The program normalizes Rithmic/ATAS CSV exports into a canonical trade table
(function load_and_clean_data, lines 94-124) and computes summary metrics over
the profit/loss column (lines 135, 145-152).

Modelling conventions:
* a pandas missing value (NaN / NaT, produced by errors=coerce parsing, by a
  dict-map miss, or by a missing column after concat) is modelled as none in
  an Option type; arithmetic on Option values propagates none exactly as IEEE
  NaN propagates through pandas arithmetic;
* numeric values are modelled with exact rationals; the spec and claims are
  stated at the exact-arithmetic level, so float rounding is out of scope;
* a raw file is its list of decoded text lines; pandas read_csv field
  splitting is modelled by a quote-aware comma splitter;
* the metrics take the profit/loss column (the series named 盈亏 in the code)
  as a list of optional rationals, in canonical (timestamp) order.
-/

/-- Valid (non-NaN) values of a pandas series, in order: pandas skipna view. -/
def validVals (xs : List (Option ℚ)) : List ℚ := xs.filterMap id

/-- Mean of a list of rationals; none on the empty list (pandas mean of an
empty or all-NaN series is NaN). Models Series.mean with skipna. -/
def listMeanQ (l : List ℚ) : Option ℚ :=
  if l = [] then none else some (l.sum / l.length)

/-- Series mean over the valid values, models Series.mean on line 145. -/
def seriesMean (xs : List (Option ℚ)) : Option ℚ := listMeanQ (validVals xs)

/-- Sample variance (ddof = 1) over the valid values; none (NaN) when fewer
than two valid values, as pandas Series.var. Models the square of Series.std
used on line 145. -/
def seriesVar (xs : List (Option ℚ)) : Option ℚ :=
  let v := validVals xs
  if v.length < 2 then none
  else some (((v.map (fun x => (x - v.sum / v.length) ^ 2)).sum) / ((v.length - 1 : ℕ) : ℚ))

/-- Sample standard deviation: square root of the sample variance, models
Series.std (ddof = 1) on line 145; none is NaN. -/
noncomputable def seriesStd (xs : List (Option ℚ)) : Option ℝ :=
  match seriesVar xs with
  | none => none
  | some v => some (Real.sqrt ((v : ℚ) : ℝ))

/-- Division with NaN propagation, as float division where an operand is NaN. -/
noncomputable def optDiv : Option ℝ → Option ℝ → Option ℝ
  | some a, some b => some (a / b)
  | _, _ => none

/-- Multiplication with NaN propagation. -/
noncomputable def optMul : Option ℝ → Option ℝ → Option ℝ
  | some a, some b => some (a * b)
  | _, _ => none

/-- Sharpe statistic of line 145:
盈亏.mean() / 盈亏.std() * sqrt 252 if 盈亏.std() != 0 else 0.
The Python test std != 0 is true when std is NaN (none), so the fallback 0 is
taken only when the standard deviation is exactly zero. -/
noncomputable def sharpe (xs : List (Option ℚ)) : Option ℝ :=
  @ite _ (seriesStd xs = some 0) (Classical.propDecidable _) (some 0)
    (optMul (optDiv ((seriesMean xs).map (fun q => (q : ℝ))) (seriesStd xs))
      (some (Real.sqrt 252)))

/-- Running sum of a series skipping NaN entries: a none input yields a none
output at that index and leaves the accumulator unchanged. This is exactly
pandas Series.cumsum with skipna (line 135). -/
def cumsumAux (acc : ℚ) : List (Option ℚ) → List (Option ℚ)
  | [] => []
  | none :: t => none :: cumsumAux acc t
  | some x :: t => some (acc + x) :: cumsumAux (acc + x) t

/-- Cumulative profit and loss column 累计盈亏 of line 135. -/
def cumsum (xs : List (Option ℚ)) : List (Option ℚ) := cumsumAux 0 xs

/-- Prefix sum of the first i+1 entries with null treated as 0; this is the
quantity the spec says cumulative_pnl should equal at index i. -/
def prefixSum0 (xs : List (Option ℚ)) (i : ℕ) : ℚ :=
  ((xs.take (i + 1)).map (fun o => o.getD 0)).sum

/-- Running-maximum combination step: with no maximum seen yet the current
value starts the maximum, otherwise take the larger. -/
def combineMax (m : Option ℚ) (x : ℚ) : ℚ :=
  match m with
  | none => x
  | some y => max y x

/-- Running maximum of a series skipping NaN entries, with m the maximum seen
so far; models pandas Series.cummax (line 148). -/
def cummaxAux (m : Option ℚ) : List (Option ℚ) → List (Option ℚ)
  | [] => []
  | none :: t => none :: cummaxAux m t
  | some x :: t => some (combineMax m x) :: cummaxAux (some (combineMax m x)) t

/-- Subtraction with NaN propagation. -/
def optSub : Option ℚ → Option ℚ → Option ℚ
  | some a, some b => some (a - b)
  | _, _ => none

/-- Elementwise difference of a series and its running maximum, with initial
maximum state m; helper for the drawdown computation of line 148. -/
def ddm (m : Option ℚ) (l : List (Option ℚ)) : List (Option ℚ) :=
  List.zipWith optSub l (cummaxAux m l)

/-- Minimum of a series skipping NaN entries; none when no valid value exists,
as pandas Series.min on an empty or all-NaN series. -/
def seriesMin : List (Option ℚ) → Option ℚ
  | [] => none
  | none :: t => seriesMin t
  | some x :: t =>
    some (match seriesMin t with
          | none => x
          | some y => min x y)

/-- Drawdown series (累计盈亏 - 累计盈亏.cummax()) of line 148. -/
def drawdown_list (xs : List (Option ℚ)) : List (Option ℚ) := ddm none (cumsum xs)

/-- Maximum drawdown of line 148: (累计盈亏 - 累计盈亏.cummax()).min(). -/
def max_drawdown (xs : List (Option ℚ)) : Option ℚ := seriesMin (drawdown_list xs)

/-- Classification of line 149: 1 if x > 0 else -1. A NaN compares false
against 0 in Python, so a null profit and loss is classified -1. -/
def classify (x : Option ℚ) : Int :=
  match x with
  | some v => if 0 < v then 1 else -1
  | none => -1

/-- Run-length grouping helper: v is the value of the run being built and n
its length so far. -/
def runsAux (v : Int) (n : ℕ) : List Int → List (Int × ℕ)
  | [] => [(v, n)]
  | x :: t => if x = v then runsAux v (n + 1) t else (v, n) :: runsAux x 1 t

/-- Maximal runs of consecutive equal values with their lengths. This models
the idiom of lines 150-152: results.ne(results.shift()).cumsum() labels each
position with a run identifier, and groupby over those labels with size
produces exactly the lengths of the maximal runs. -/
def runs : List Int → List (Int × ℕ)
  | [] => []
  | x :: t => runsAux x 1 t

/-- Maximum of a list of naturals; none on the empty list (pandas max of an
empty series is NaN). -/
def listMax : List ℕ → Option ℕ
  | [] => none
  | n :: t =>
    some (match listMax t with
          | none => n
          | some m => Nat.max n m)

/-- Longest winning streak of line 151: the largest group size among positions
classified 1; NaN (none) when there is no winning trade at all. -/
def max_win_streak (xs : List (Option ℚ)) : Option ℕ :=
  listMax (((runs (xs.map classify)).filter (fun p => p.1 == 1)).map Prod.snd)

/-- Longest losing streak of line 152, symmetric to max_win_streak. -/
def max_loss_streak (xs : List (Option ℚ)) : Option ℕ :=
  listMax (((runs (xs.map classify)).filter (fun p => p.1 == -1)).map Prod.snd)

/-- Winning profit and loss values: 盈亏 of the rows with 盈亏 > 0 (line 147).
A NaN compares false, so null values are excluded. -/
def winners (xs : List (Option ℚ)) : List ℚ := (validVals xs).filter (fun v => 0 < v)

/-- Losing profit and loss values: 盈亏 of the rows with 盈亏 < 0 (line 147). -/
def losers (xs : List (Option ℚ)) : List ℚ := (validVals xs).filter (fun v => v < 0)

/-- Profit factor of line 147 (named profit_ratio in the source):
winners.mean() / -losers.mean() if the loser set is nonempty, else NaN. -/
def profit_factor (xs : List (Option ℚ)) : Option ℚ :=
  if losers xs = [] then none
  else
    match listMeanQ (winners xs), listMeanQ (losers xs) with
    | some a, some b => some (a / (-b))
    | _, _ => none

/-- Trade side after the dict map of line 117. -/
inductive Side where
  | Buy : Side
  | Sell : Side
deriving DecidableEq

/-- Canonical trade record: one row of the cleaned table of lines 112-122,
after column projection, rename and element coercion. Fields that pandas can
leave as NaN are Option valued; commission gets fillna 0 (line 120). -/
structure Trade where
  account : Option String
  side : Option Side
  symbol : Option String
  price : Option ℚ
  quantity : Option ℚ
  time : Option ℕ
  commission : ℚ
  pnl : Option ℚ
deriving DecidableEq

/-- Digit value of a character, none for a non-digit. -/
def digitVal (c : Char) : Option ℕ :=
  if c.isDigit then some (c.toNat - 48) else none

/-- Accumulating decimal read of a digit string; none on a non-digit. -/
def digitsValAux (acc : ℕ) : List Char → Option ℕ
  | [] => some acc
  | c :: cs =>
    match digitVal c with
    | some d => digitsValAux (acc * 10 + d) cs
    | none => none

/-- Numeric coercion of lines 118-121, modelling pd.to_numeric with
errors=coerce on decimal literals: optional sign, digits, optional fraction;
anything else coerces to NaN (none). -/
def parseRat (s : String) : Option ℚ :=
  let p : Bool × List Char :=
    match s.toList with
    | '-' :: t => (true, t)
    | '+' :: t => (false, t)
    | t => (false, t)
  let ip := p.2.takeWhile (fun c => c != '.')
  let rest := p.2.dropWhile (fun c => c != '.')
  let q : Option ℚ :=
    match rest with
    | [] =>
      if ip.isEmpty then none
      else (digitsValAux 0 ip).map (fun n => (n : ℚ))
    | _ :: fp =>
      if ip.isEmpty && fp.isEmpty then none
      else
        match digitsValAux 0 ip, digitsValAux 0 fp with
        | some n, some f => some ((n : ℚ) + (f : ℚ) / ((10 : ℚ) ^ fp.length))
        | _, _ => none
  q.map (fun v => if p.1 then -v else v)

/-- Read exactly k digit characters, extending the accumulator by their
decimal value; returns the value and the remaining characters. -/
def readDigits (acc : ℕ) : ℕ → List Char → Option (ℕ × List Char)
  | 0, cs => some (acc, cs)
  | _ + 1, [] => none
  | k + 1, c :: cs =>
    match digitVal c with
    | some d => readDigits (acc * 10 + d) k cs
    | none => none

/-- Consume one expected character. -/
def expectChar (c : Char) : List Char → Option (List Char)
  | [] => none
  | d :: cs => if d == c then some cs else none

/-- Timestamp coercion of line 116, modelling pd.to_datetime with
errors=coerce on the export format YYYY-MM-DD HH:MM:SS: the fourteen digits
read as one natural number, which orders exactly as the instants do; any
other shape coerces to NaT (none). -/
def parseTime (s : String) : Option ℕ := do
  let (y, r1) ← readDigits 0 4 s.toList
  let r2 ← expectChar '-' r1
  let (mo, r3) ← readDigits 0 2 r2
  let r4 ← expectChar '-' r3
  let (d, r5) ← readDigits 0 2 r4
  let r6 ← expectChar ' ' r5
  let (h, r7) ← readDigits 0 2 r6
  let r8 ← expectChar ':' r7
  let (mi, r9) ← readDigits 0 2 r8
  let r10 ← expectChar ':' r9
  let (se, r11) ← readDigits 0 2 r10
  if r11.isEmpty then
    pure (((((y * 100 + mo) * 100 + d) * 100 + h) * 100 + mi) * 100 + se)
  else none

/-- Dict map of line 117: B to Buy, S to Sell, anything else NaN. -/
def mapSide (s : String) : Option Side :=
  if s == "B" then some Side.Buy
  else if s == "S" then some Side.Sell
  else none

/-- Plain comma split, as str.split used on the header line (line 104). -/
def splitCommaAux (cur : List Char) : List Char → List String
  | [] => [String.mk cur.reverse]
  | c :: t =>
    if c == ',' then String.mk cur.reverse :: splitCommaAux [] t
    else splitCommaAux (c :: cur) t

/-- Comma split of a header line after quote removal. -/
def splitComma (s : String) : List String := splitCommaAux [] s.toList

/-- Quote-aware field split of one data line, modelling the read_csv field
semantics of line 106: commas inside quoted fields do not split, and quote
characters are dropped. -/
def csvSplitAux (inq : Bool) (cur : List Char) : List Char → List String
  | [] => [String.mk cur.reverse]
  | c :: t =>
    if c == Char.ofNat 34 then csvSplitAux (!inq) cur t
    else if c == ',' && !inq then String.mk cur.reverse :: csvSplitAux false [] t
    else csvSplitAux inq (c :: cur) t

/-- Field split of one CSV data row. -/
def csvSplit (s : String) : List String := csvSplitAux false [] s.toList

/-- Marker text searched for on line 99. -/
def markerChars : List Char := "Completed Orders".toList

/-- Substring test: true when the marker occurs in the line (line 99). -/
def hasMarker : List Char → Bool
  | [] => false
  | c :: t => List.isPrefixOf markerChars (c :: t) || hasMarker t

/-- Extracted section of one file: the header column names and the data rows,
each row an association of column name to cell text. A row shorter than the
header simply lacks the trailing columns (pandas fills them with NaN). -/
structure Table where
  cols : List String
  rows : List (List (String × String))
deriving DecidableEq

/-- Per-file extraction of lines 95-107 (extract_completed_orders): scan for
the first line containing Completed Orders; no marker yields an empty table;
the next line is the header, quote characters removed, split on commas; all
later nonblank lines are data rows keyed by the header. A marker on the last
line raises (IndexError on lines[start_index]); no data under the header
raises (pandas EmptyDataError on read_csv of empty text). -/
def extract_completed_orders (lines : List String) : Except String Table :=
  match lines.findIdx? (fun l => hasMarker l.toList) with
  | none => .ok ⟨[], []⟩
  | some i =>
    match lines[i + 1]? with
    | none => .error "IndexError"
    | some h =>
      let header := splitComma (String.mk (h.toList.filter (fun c => c != Char.ofNat 34)))
      let dataLines := (lines.drop (i + 2)).filter (fun l => l != "")
      if dataLines.isEmpty then .error "EmptyDataError"
      else .ok ⟨header, dataLines.map (fun l => header.zip (csvSplit l))⟩

/-- Extraction of every file in upload order (the list comprehension of
line 109); the first structural failure aborts the run. -/
def extractAll : List (List String) → Except String (List Table)
  | [] => .ok []
  | f :: fs =>
    match extract_completed_orders f, extractAll fs with
    | .ok t, .ok ts => .ok (t :: ts)
    | .error e, _ => .error e
    | .ok _, .error e => .error e

/-- Column set of the concatenated table: pd.concat takes the union of the
per-file columns (line 110); only membership matters downstream. -/
def tableCols (ts : List Table) : List String := (ts.map Table.cols).flatten

/-- Row list of the concatenated table, file order then row order. -/
def tableRows (ts : List Table) : List (List (String × String)) :=
  (ts.map Table.rows).flatten

/-- Eight source columns projected on lines 112-114. -/
def required_cols : List String :=
  ["Account", "Buy/Sell", "Symbol", "Avg Fill Price", "Qty To Fill",
   "Update Time (CST)", "Commission Fill Rate", "Closed Profit/Loss"]

/-- Row coercion of lines 115-121: project the eight columns and coerce each
cell; a missing column reads as NaN, which every coercion sends to none and
the commission fillna sends to 0. -/
def toTrade (r : List (String × String)) : Trade :=
  { account := r.lookup "Account"
    side := (r.lookup "Buy/Sell").bind mapSide
    symbol := r.lookup "Symbol"
    price := (r.lookup "Avg Fill Price").bind parseRat
    quantity := (r.lookup "Qty To Fill").bind parseRat
    time := (r.lookup "Update Time (CST)").bind parseTime
    commission := ((r.lookup "Commission Fill Rate").bind parseRat).getD 0
    pnl := (r.lookup "Closed Profit/Loss").bind parseRat }

/-- Row retention test of line 122: dropna on 时间, 价格 and 方向. -/
def keepRow (t : Trade) : Bool :=
  t.time.isSome && t.price.isSome && t.side.isSome

/-- Ordered insertion by timestamp. -/
def insertByTime (t : Trade) : List Trade → List Trade
  | [] => [t]
  | u :: us =>
    if t.time.getD 0 ≤ u.time.getD 0 then t :: u :: us
    else u :: insertByTime t us

/-- Comparison sort ascending by timestamp, modelling sort_values on 时间 of
line 123. The source sorts with numpy quicksort, whose order among equal
timestamps is unspecified; this model fixes one order, so no theorem below
relies on the tie order. -/
def sortByTime : List Trade → List Trade
  | [] => []
  | t :: ts => insertByTime t (sortByTime ts)

/-- Whole normalization run of lines 94-124 (load_and_clean_data): extract
every file, concatenate, keep rows with Status equal to Filled, project the
eight required columns (a KeyError when the concatenated table lacks Status
or a required column), coerce, drop rows with null timestamp, price or side,
and sort ascending by timestamp. -/
def load_and_clean_data (files : List (List String)) : Except String (List Trade) :=
  match extractAll files with
  | .error e => .error e
  | .ok tables =>
    let cols := tableCols tables
    if cols.contains "Status" then
      let rows := (tableRows tables).filter (fun r => r.lookup "Status" == some "Filled")
      if required_cols.all (fun c => cols.contains c) then
        .ok (sortByTime ((rows.map toTrade).filter keepRow))
      else .error "KeyError"
    else .error "KeyError"

deriving instance DecidableEq for Except

/-- Concrete fixture: one file with the full nine-column header and one
filled row. -/
def fileA : List String :=
  ["Completed Orders",
   "Account,Buy/Sell,Symbol,Avg Fill Price,Qty To Fill,Update Time (CST),Commission Fill Rate,Closed Profit/Loss,Status",
   "A1,B,ES,100.5,1,2024-01-02 10:00:00,2.5,10,Filled"]

/-- Concrete fixture: one file whose extracted header lacks most of the
required columns, among them Closed Profit/Loss. -/
def fileB : List String :=
  ["Completed Orders", "Account,Buy/Sell", "A2,B"]

/-- Trade list of a successful normalization run, empty on failure. -/
def okTrades (files : List (List String)) : List Trade :=
  (load_and_clean_data files).toOption.getD []

/-- Placeholder trade used as a list-head default. -/
def dummyTrade : Trade := ⟨none, none, none, none, none, none, 0, none⟩

/-! Helper lemmas about the series view. -/

theorem validVals_nil : validVals [] = [] := rfl

theorem validVals_none_cons (t : List (Option ℚ)) : validVals (none :: t) = validVals t := rfl

theorem validVals_some_cons (x : ℚ) (t : List (Option ℚ)) :
    validVals (some x :: t) = x :: validVals t := rfl

theorem mem_validVals {v : ℚ} {xs : List (Option ℚ)} : v ∈ validVals xs ↔ some v ∈ xs := by
  simp [validVals, List.mem_filterMap, id]

theorem seriesVar_nonneg {xs : List (Option ℚ)} {v : ℚ} (h : seriesVar xs = some v) : 0 ≤ v := by
  dsimp only [seriesVar] at h
  split at h
  · exact absurd h (by simp)
  · rw [Option.some_inj] at h
    subst h
    apply div_nonneg
    · apply List.sum_nonneg
      intro x hx
      obtain ⟨y, _, rfl⟩ := List.mem_map.mp hx
      positivity
    · positivity

theorem seriesStd_eq_zero_iff {xs : List (Option ℚ)} :
    seriesStd xs = some 0 ↔ seriesVar xs = some 0 := by
  unfold seriesStd
  cases hv : seriesVar xs with
  | none => simp
  | some v =>
    have hnn := seriesVar_nonneg hv
    simp only [Option.some_inj]
    constructor
    · intro h
      have h1 : ((v : ℝ)) ≤ 0 := Real.sqrt_eq_zero'.mp h
      have h2 : (v : ℝ) = 0 := le_antisymm h1 (by exact_mod_cast hnn)
      exact_mod_cast h2
    · intro h
      subst h
      simp [Real.sqrt_zero]

theorem optDiv_none_right (a : Option ℝ) : optDiv a none = none := by
  cases a <;> rfl

theorem optMul_none_left (b : Option ℝ) : optMul none b = none := by
  cases b <;> rfl

/-- C1 (amended): the sharpe statistic equals
mean(profit_loss) / sample-stddev(profit_loss) * sqrt 252 whenever the sample
standard deviation is defined and nonzero, and equals exactly 0 whenever the
sample standard deviation is exactly 0 (which requires at least two valid
values); but for a sequence with at most one valid profit_loss value the
sample standard deviation is NaN, not 0, and sharpe is NaN rather than 0. -/
theorem sharpe_spec (xs : List (Option ℚ)) :
    (seriesVar xs = some 0 → sharpe xs = some 0)
  ∧ (∀ m v : ℚ, seriesMean xs = some m → seriesVar xs = some v → v ≠ 0 →
      sharpe xs = some ((m : ℝ) / Real.sqrt ((v : ℚ) : ℝ) * Real.sqrt 252))
  ∧ ((validVals xs).length ≤ 1 → sharpe xs = none) := by
  refine ⟨?_, ?_, ?_⟩
  · intro h
    have hstd : seriesStd xs = some 0 := seriesStd_eq_zero_iff.mpr h
    unfold sharpe
    rw [if_pos hstd]
  · intro m v hm hv hvne
    have hnn := seriesVar_nonneg hv
    have hpos : (0 : ℚ) < v := lt_of_le_of_ne hnn (Ne.symm hvne)
    have hstd : seriesStd xs = some (Real.sqrt ((v : ℚ) : ℝ)) := by
      unfold seriesStd
      rw [hv]
    have hspos : (0 : ℝ) < Real.sqrt ((v : ℚ) : ℝ) := by
      rw [Real.sqrt_pos]
      exact_mod_cast hpos
    unfold sharpe
    rw [if_neg (by rw [hstd]; intro hcon; rw [Option.some_inj] at hcon; exact hspos.ne' hcon)]
    rw [hstd, hm]
    rfl
  · intro h
    have hv : seriesVar xs = none := by
      dsimp only [seriesVar]
      rw [if_pos (by omega)]
    have hstd : seriesStd xs = none := by
      unfold seriesStd
      rw [hv]
    unfold sharpe
    rw [if_neg (by rw [hstd]; exact fun hcon => Option.noConfusion hcon)]
    rw [hstd, optDiv_none_right, optMul_none_left]

/-- C1 counterexample: for the single-record sequence with profit_loss 5 the
sample standard deviation is NaN (none), the Python test std != 0 is then
true, and sharpe evaluates to NaN (none), not to 0 as the claim states for
every sequence with at most one record. -/
theorem sharpe_counterexample : sharpe [some (5 : ℚ)] ≠ some 0 := by
  have hv : seriesVar [some (5 : ℚ)] = none := by
    dsimp only [seriesVar]
    rw [if_pos (by decide)]
  have hstd : seriesStd [some (5 : ℚ)] = none := by
    unfold seriesStd
    rw [hv]
  unfold sharpe
  rw [if_neg (by rw [hstd]; exact fun hcon => Option.noConfusion hcon)]
  rw [hstd, optDiv_none_right, optMul_none_left]
  exact fun hcon => Option.noConfusion hcon

/-- Witness for C1: the two-record sequence with equal values 2 has sample
variance exactly 0 and sharpe exactly 0. -/
theorem sharpe_spec_witness :
    seriesVar [some (2 : ℚ), some 2] = some 0 ∧ sharpe [some (2 : ℚ), some 2] = some 0 :=
  ⟨by with_unfolding_all decide, (sharpe_spec [some (2 : ℚ), some 2]).1 (by with_unfolding_all decide)⟩

theorem prefixSum0_zero_cons (x : Option ℚ) (t : List (Option ℚ)) :
    prefixSum0 (x :: t) 0 = x.getD 0 := by
  simp [prefixSum0]

theorem prefixSum0_succ_cons (x : Option ℚ) (t : List (Option ℚ)) (i : ℕ) :
    prefixSum0 (x :: t) (i + 1) = x.getD 0 + prefixSum0 t i := by
  simp [prefixSum0, List.take_succ_cons]

theorem cumsumAux_getElem (xs : List (Option ℚ)) :
    ∀ (acc : ℚ) (i : ℕ),
      (cumsumAux acc xs)[i]? =
        (xs[i]?).map (Option.map (fun _ => acc + prefixSum0 xs i)) := by
  induction xs with
  | nil => intro acc i; simp [cumsumAux]
  | cons x t ih =>
    intro acc i
    cases x with
    | none =>
      cases i with
      | zero => simp [cumsumAux, prefixSum0_zero_cons]
      | succ j =>
        simp only [cumsumAux, List.getElem?_cons_succ]
        rw [ih acc j, prefixSum0_succ_cons]
        simp
    | some v =>
      cases i with
      | zero => simp [cumsumAux, prefixSum0_zero_cons]
      | succ j =>
        simp only [cumsumAux, List.getElem?_cons_succ]
        rw [ih (acc + v) j, prefixSum0_succ_cons]
        simp [add_assoc]

/-- C3 (amended): at every index whose profit_loss parsed to a number, the
cumulative column of line 135 is defined and equals the prefix sum with null
treated as 0; but at an index whose profit_loss is null the cumulative column
is NaN (none), not a defined number. -/
theorem cumsum_spec (xs : List (Option ℚ)) (i : ℕ) :
    (∀ v : ℚ, xs[i]? = some (some v) →
      (cumsum xs)[i]? = some (some (prefixSum0 xs i)))
  ∧ (xs[i]? = some none → (cumsum xs)[i]? = some none) := by
  have h := cumsumAux_getElem xs 0 i
  unfold cumsum
  constructor
  · intro v hv
    rw [h, hv]
    simp
  · intro hv
    rw [h, hv]
    simp

/-- C3 counterexample: for the single-record sequence whose profit_loss is
null, the cumulative column at index 0 is NaN (none), not the defined number
that the prefix sum with null treated as 0 would give. -/
theorem cumsum_counterexample :
    (cumsum [(none : Option ℚ)])[0]? ≠ some (some (prefixSum0 [(none : Option ℚ)] 0)) := by
  with_unfolding_all decide

/-- Witness for C3: on the sequence 1, null, 2 the cumulative column at the
defined index 2 equals the prefix sum 3 with the null treated as 0. -/
theorem cumsum_spec_witness :
    (cumsum [some (1 : ℚ), none, some 2])[2]? =
      some (some (prefixSum0 [some (1 : ℚ), none, some 2] 2)) :=
  (cumsum_spec [some (1 : ℚ), none, some 2] 2).1 2 (by decide)

theorem ddm_nil (m : Option ℚ) : ddm m [] = [] := rfl

theorem ddm_none_cons (m : Option ℚ) (t : List (Option ℚ)) :
    ddm m (none :: t) = none :: ddm m t := rfl

theorem ddm_some_cons (m : Option ℚ) (x : ℚ) (t : List (Option ℚ)) :
    ddm m (some x :: t) =
      some (x - combineMax m x) :: ddm (some (combineMax m x)) t := rfl

theorem le_combineMax (m : Option ℚ) (x : ℚ) : x ≤ combineMax m x := by
  cases m with
  | none => exact le_refl x
  | some y => exact le_max_right y x

theorem ddm_nonpos (l : List (Option ℚ)) :
    ∀ (m : Option ℚ) (v : ℚ), some v ∈ ddm m l → v ≤ 0 := by
  induction l with
  | nil => intro m v h; simp [ddm_nil] at h
  | cons x t ih =>
    intro m v h
    cases x with
    | none =>
      rw [ddm_none_cons] at h
      rcases List.mem_cons.mp h with hcon | hmem
      · exact absurd hcon (by simp)
      · exact ih m v hmem
    | some y =>
      rw [ddm_some_cons] at h
      rcases List.mem_cons.mp h with heq | hmem
      · rw [Option.some_inj] at heq
        subst heq
        have := le_combineMax m y
        linarith
      · exact ih (some (combineMax m y)) v hmem

theorem validVals_ddm_length (l : List (Option ℚ)) :
    ∀ m : Option ℚ, (validVals (ddm m l)).length = (validVals l).length := by
  induction l with
  | nil => intro m; rfl
  | cons x t ih =>
    intro m
    cases x with
    | none => rw [ddm_none_cons, validVals_none_cons, validVals_none_cons]; exact ih m
    | some y =>
      rw [ddm_some_cons, validVals_some_cons, validVals_some_cons]
      simp only [List.length_cons]
      rw [ih (some (combineMax m y))]

theorem validVals_cumsumAux_length (xs : List (Option ℚ)) :
    ∀ acc : ℚ, (validVals (cumsumAux acc xs)).length = (validVals xs).length := by
  induction xs with
  | nil => intro acc; rfl
  | cons x t ih =>
    intro acc
    cases x with
    | none =>
      show (validVals (none :: cumsumAux acc t)).length = _
      rw [validVals_none_cons, validVals_none_cons]
      exact ih acc
    | some y =>
      show (validVals (some (acc + y) :: cumsumAux (acc + y) t)).length = _
      rw [validVals_some_cons, validVals_some_cons]
      simp only [List.length_cons]
      rw [ih (acc + y)]

theorem ddm_allZero_chain (t : List (Option ℚ)) :
    ∀ y : ℚ, (∀ v : ℚ, some v ∈ ddm (some y) t → v = 0) ↔
      List.Chain (· ≤ ·) y (validVals t) := by
  induction t with
  | nil =>
    intro y
    constructor
    · intro _; exact List.Chain.nil
    · intro _ v hv; simp [ddm_nil] at hv
  | cons x t ih =>
    intro y
    cases x with
    | none =>
      rw [ddm_none_cons, validVals_none_cons]
      constructor
      · intro h
        exact (ih y).mp (fun v hv => h v (List.mem_cons_of_mem _ hv))
      · intro h v hv
        rcases List.mem_cons.mp hv with hcon | hmem
        · exact absurd hcon (by simp)
        · exact (ih y).mpr h v hmem
    | some x =>
      rw [ddm_some_cons, validVals_some_cons]
      have hcm : combineMax (some y) x = max y x := rfl
      rw [List.chain_cons]
      constructor
      · intro h
        have h0 : x - combineMax (some y) x = 0 := h _ (List.mem_cons_self _ _)
        have hyx : y ≤ x := by
          rw [hcm] at h0
          have : max y x = x := by linarith
          exact max_eq_right_iff.mp this
        refine ⟨hyx, ?_⟩
        have hmx : combineMax (some y) x = x := by rw [hcm, max_eq_right hyx]
        apply (ih x).mp
        intro v hv
        apply h
        rw [hmx]
        exact List.mem_cons_of_mem _ hv
      · rintro ⟨hyx, hchain⟩ v hv
        have hmx : combineMax (some y) x = x := by rw [hcm, max_eq_right hyx]
        rw [hmx] at hv
        rcases List.mem_cons.mp hv with heq | hmem
        · rw [Option.some_inj] at heq
          linarith
        · exact (ih x).mpr hchain v hmem

theorem ddm_allZero_chain_root (t : List (Option ℚ)) :
    (∀ v : ℚ, some v ∈ ddm none t → v = 0) ↔
      List.Chain' (· ≤ ·) (validVals t) := by
  induction t with
  | nil =>
    constructor
    · intro _; trivial
    · intro _ v hv; simp [ddm_nil] at hv
  | cons x t ih =>
    cases x with
    | none =>
      rw [ddm_none_cons, validVals_none_cons]
      constructor
      · intro h
        exact ih.mp (fun v hv => h v (List.mem_cons_of_mem _ hv))
      · intro h v hv
        rcases List.mem_cons.mp hv with hcon | hmem
        · exact absurd hcon (by simp)
        · exact ih.mpr h v hmem
    | some x =>
      rw [ddm_some_cons, validVals_some_cons]
      have hcm : combineMax none x = x := rfl
      rw [hcm]
      have hch : List.Chain' (· ≤ ·) (x :: validVals t) ↔
          List.Chain (· ≤ ·) x (validVals t) := Iff.rfl
      rw [hch]
      constructor
      · intro h
        apply (ddm_allZero_chain t x).mp
        intro v hv
        exact h v (List.mem_cons_of_mem _ hv)
      · intro h v hv
        rcases List.mem_cons.mp hv with heq | hmem
        · rw [Option.some_inj] at heq
          rw [heq]
          exact sub_self x
        · exact (ddm_allZero_chain t x).mpr h v hmem

theorem seriesMin_spec (l : List (Option ℚ)) :
    (seriesMin l = none ∧ validVals l = []) ∨
    (∃ d : ℚ, seriesMin l = some d ∧ d ∈ validVals l ∧ ∀ v ∈ validVals l, d ≤ v) := by
  induction l with
  | nil => exact Or.inl ⟨rfl, rfl⟩
  | cons x t ih =>
    cases x with
    | none =>
      show (seriesMin t = none ∧ validVals t = []) ∨ _
      rcases ih with h | ⟨d, hd, hmem, hle⟩
      · exact Or.inl h
      · exact Or.inr ⟨d, hd, hmem, hle⟩
    | some x =>
      right
      rcases ih with ⟨hmin, hval⟩ | ⟨d, hd, hmem, hle⟩
      · refine ⟨x, ?_, ?_, ?_⟩
        · show some _ = some x
          rw [hmin]
        · rw [validVals_some_cons]; exact List.mem_cons_self _ _
        · intro v hv
          rw [validVals_some_cons, hval] at hv
          rcases List.mem_cons.mp hv with heq | hmem2
          · rw [heq]
          · simp at hmem2
      · refine ⟨min x d, ?_, ?_, ?_⟩
        · show some _ = some (min x d)
          rw [hd]
        · rw [validVals_some_cons]
          rcases min_choice x d with hc | hc <;> rw [hc]
          · exact List.mem_cons_self _ _
          · exact List.mem_cons_of_mem _ hmem
        · intro v hv
          rw [validVals_some_cons] at hv
          rcases List.mem_cons.mp hv with heq | hmem2
          · rw [heq]; exact min_le_left x d
          · exact le_trans (min_le_right x d) (hle v hmem2)

/-- C5 (amended): for every trade sequence with at least one non-null
profit_loss, max_drawdown is a defined number d with d ≤ 0, and d = 0 exactly
when the defined entries of the cumulative column never decline from their
running peak; but for a non-empty sequence whose profit_loss values are all
null, max_drawdown is NaN (none), so the claimed inequality fails there. -/
theorem max_drawdown_spec (xs : List (Option ℚ)) (h : ∃ v : ℚ, some v ∈ xs) :
    ∃ d : ℚ, max_drawdown xs = some d ∧ d ≤ 0 ∧
      (d = 0 ↔ List.Chain' (· ≤ ·) (validVals (cumsum xs))) := by
  obtain ⟨v, hv⟩ := h
  have hxs : (validVals xs).length ≠ 0 := by
    intro hlen
    rw [List.length_eq_zero] at hlen
    have := mem_validVals.mpr hv
    rw [hlen] at this
    simp at this
  have hdd : (validVals (ddm none (cumsum xs))).length ≠ 0 := by
    rw [validVals_ddm_length]
    unfold cumsum
    rw [validVals_cumsumAux_length]
    exact hxs
  have hspec := seriesMin_spec (ddm none (cumsum xs))
  rcases hspec with ⟨_, hval⟩ | ⟨d, hd, hmem, hle⟩
  · rw [hval] at hdd
    simp at hdd
  · have hmd : max_drawdown xs = some d := hd
    have hmemd : some d ∈ ddm none (cumsum xs) := mem_validVals.mp hmem
    have hdle : d ≤ 0 := ddm_nonpos (cumsum xs) none d hmemd
    refine ⟨d, hmd, hdle, ?_, ?_⟩
    · intro hd0
      apply (ddm_allZero_chain_root (cumsum xs)).mp
      intro w hw
      have hwle : w ≤ 0 := ddm_nonpos (cumsum xs) none w hw
      have hwge : d ≤ w := hle w (mem_validVals.mpr hw)
      linarith
    · intro hchain
      exact (ddm_allZero_chain_root (cumsum xs)).mpr hchain d hmemd

/-- C5 counterexample: the non-empty single-record sequence with a null
profit_loss has max_drawdown NaN (none), so max_drawdown is not a number d
with d ≤ 0 there, contradicting the claim for every non-empty sequence. -/
theorem max_drawdown_counterexample :
    ¬ ∃ d : ℚ, max_drawdown [(none : Option ℚ)] = some d := by
  rintro ⟨d, hd⟩
  have h0 : max_drawdown [(none : Option ℚ)] = none := by decide
  rw [h0] at hd
  exact Option.noConfusion hd

/-- Witness for C5: the sequence 1, -1 has max_drawdown -1 which is at most 0
and nonzero, and its cumulative column 1, 0 indeed declines from its peak. -/
theorem max_drawdown_spec_witness :
    ∃ d : ℚ, max_drawdown [some (1 : ℚ), some (-1)] = some d ∧ d ≤ 0 ∧
      (d = 0 ↔ List.Chain' (· ≤ ·) (validVals (cumsum [some (1 : ℚ), some (-1)]))) :=
  max_drawdown_spec [some (1 : ℚ), some (-1)] ⟨1, by with_unfolding_all decide⟩

theorem runsAux_sum (t : List Int) :
    ∀ (v : Int) (n : ℕ), ((runsAux v n t).map Prod.snd).sum = n + t.length := by
  induction t with
  | nil => intro v n; simp [runsAux]
  | cons x t ih =>
    intro v n
    unfold runsAux
    by_cases hx : x = v
    · rw [if_pos hx, ih v (n + 1)]
      simp
      omega
    · rw [if_neg hx]
      simp only [List.map_cons, List.sum_cons, List.length_cons]
      rw [ih x 1]
      omega

theorem runsAux_flatten (t : List Int) :
    ∀ (v : Int) (n : ℕ),
      ((runsAux v n t).map (fun p => List.replicate p.2 p.1)).flatten =
        List.replicate n v ++ t := by
  induction t with
  | nil => intro v n; simp [runsAux]
  | cons x t ih =>
    intro v n
    unfold runsAux
    by_cases hx : x = v
    · rw [if_pos hx, ih v (n + 1), hx]
      rw [List.replicate_succ' n v]
      simp
    · rw [if_neg hx]
      simp only [List.map_cons, List.flatten_cons]
      rw [ih x 1]
      simp

theorem runsAux_mem_fst (t : List Int) :
    ∀ (v : Int) (n : ℕ) (p : Int × ℕ), p ∈ runsAux v n t → p.1 = v ∨ p.1 ∈ t := by
  induction t with
  | nil =>
    intro v n p hp
    simp [runsAux] at hp
    left
    rw [hp]
  | cons x t ih =>
    intro v n p hp
    unfold runsAux at hp
    by_cases hx : x = v
    · rw [if_pos hx] at hp
      rcases ih v (n + 1) p hp with h | h
      · exact Or.inl h
      · exact Or.inr (List.mem_cons_of_mem _ h)
    · rw [if_neg hx] at hp
      rcases List.mem_cons.mp hp with heq | hmem
      · left; rw [heq]
      · rcases ih x 1 p hmem with h | h
        · right; rw [h]; exact List.mem_cons_self _ _
        · exact Or.inr (List.mem_cons_of_mem _ h)

theorem runsAux_pos (t : List Int) :
    ∀ (v : Int) (n : ℕ), 0 < n → ∀ p ∈ runsAux v n t, 0 < p.2 := by
  induction t with
  | nil =>
    intro v n hn p hp
    simp [runsAux] at hp
    rw [hp]
    exact hn
  | cons x t ih =>
    intro v n hn p hp
    unfold runsAux at hp
    by_cases hx : x = v
    · rw [if_pos hx] at hp
      exact ih v (n + 1) (by omega) p hp
    · rw [if_neg hx] at hp
      rcases List.mem_cons.mp hp with heq | hmem
      · rw [heq]; exact hn
      · exact ih x 1 (by omega) p hmem

theorem runsAux_head (t : List Int) :
    ∀ (v : Int) (n : ℕ), ∃ k : ℕ, (runsAux v n t).head? = some (v, k) := by
  induction t with
  | nil => intro v n; exact ⟨n, rfl⟩
  | cons x t ih =>
    intro v n
    unfold runsAux
    by_cases hx : x = v
    · rw [if_pos hx]; exact ih v (n + 1)
    · rw [if_neg hx]; exact ⟨n, rfl⟩

theorem runsAux_chain (t : List Int) :
    ∀ (v : Int) (n : ℕ),
      List.Chain' (fun a b : Int × ℕ => a.1 ≠ b.1) (runsAux v n t) := by
  induction t with
  | nil => intro v n; simp [runsAux]
  | cons x t ih =>
    intro v n
    unfold runsAux
    by_cases hx : x = v
    · rw [if_pos hx]; exact ih v (n + 1)
    · rw [if_neg hx]
      rw [List.chain'_cons']
      refine ⟨?_, ih x 1⟩
      intro y hy
      obtain ⟨k, hk⟩ := runsAux_head t x 1
      rw [hk, Option.mem_def, Option.some_inj] at hy
      rw [← hy]
      simpa using fun hcon => hx hcon.symm

theorem classify_cases (o : Option ℚ) : classify o = 1 ∨ classify o = -1 := by
  cases o with
  | none => right; rfl
  | some v =>
    by_cases hv : 0 < v
    · left; simp [classify, hv]
    · right; simp [classify, hv]

/-- C6: classifying each trade 1 when profit_loss is greater than 0 and -1
otherwise (zero and null give -1), the maximal runs of equal classifications
partition the sequence: they flatten back to the classification list, the sum
of all run lengths of both signs is exactly N, every run carries sign 1 or -1
with positive length, adjacent runs have different signs, and max_win_streak
and max_loss_streak of lines 149-152 are the largest lengths among the runs
of sign 1 and of sign -1 respectively. -/
theorem streaks_partition (xs : List (Option ℚ)) (h : xs ≠ []) :
    ((runs (xs.map classify)).map (fun p => List.replicate p.2 p.1)).flatten
      = xs.map classify
  ∧ ((runs (xs.map classify)).map Prod.snd).sum = xs.length
  ∧ (∀ p ∈ runs (xs.map classify), (p.1 = 1 ∨ p.1 = -1) ∧ 0 < p.2)
  ∧ List.Chain' (fun a b : Int × ℕ => a.1 ≠ b.1) (runs (xs.map classify))
  ∧ max_win_streak xs =
      listMax (((runs (xs.map classify)).filter (fun p => p.1 == 1)).map Prod.snd)
  ∧ max_loss_streak xs =
      listMax (((runs (xs.map classify)).filter (fun p => p.1 == -1)).map Prod.snd) := by
  have hex : ∃ (c : Int) (cs : List Int), xs.map classify = c :: cs := by
    cases hxs : xs.map classify with
    | nil => exact absurd (List.map_eq_nil_iff.mp hxs) h
    | cons c cs => exact ⟨c, cs, rfl⟩
  obtain ⟨c, cs, hxs⟩ := hex
  have hrun : runs (xs.map classify) = runsAux c 1 cs := by rw [hxs]; rfl
  refine ⟨?_, ?_, ?_, ?_, rfl, rfl⟩
  · rw [hrun, runsAux_flatten, hxs]
    simp
  · rw [hrun, runsAux_sum cs c 1]
    have hlen : (xs.map classify).length = xs.length := List.length_map xs classify
    rw [hxs] at hlen
    simp at hlen
    omega
  · intro p hp
    rw [hrun] at hp
    constructor
    · rcases runsAux_mem_fst cs c 1 p hp with hv | hv
      · have hc : c ∈ xs.map classify := by rw [hxs]; exact List.mem_cons_self _ _
        obtain ⟨o, _, ho⟩ := List.mem_map.mp hc
        rw [hv, ← ho]
        exact classify_cases o
      · have hc : p.1 ∈ xs.map classify := by rw [hxs]; exact List.mem_cons_of_mem _ hv
        obtain ⟨o, _, ho⟩ := List.mem_map.mp hc
        rw [← ho]
        exact classify_cases o
    · exact runsAux_pos cs c 1 (by omega) p hp
  · rw [hrun]
    exact runsAux_chain cs c 1

/-- Witness for C6: on the sequence 1, -1, -1 the run lengths sum to 3, the
length of the sequence. -/
theorem streaks_partition_witness :
    ((runs ([some (1 : ℚ), some (-1), some (-1)].map classify)).map Prod.snd).sum = 3 :=
  (streaks_partition [some (1 : ℚ), some (-1), some (-1)] (by decide)).2.1

theorem runs_mem_fst {l : List Int} {p : Int × ℕ} (hp : p ∈ runs l) : p.1 ∈ l := by
  cases l with
  | nil => simp [runs] at hp
  | cons x t =>
    rcases runsAux_mem_fst t x 1 p hp with h | h
    · rw [h]; exact List.mem_cons_self _ _
    · exact List.mem_cons_of_mem _ h

/-- C9: for a non-empty sequence in which no trade is classified 1 (no
profit_loss above 0), max_win_streak of line 151 is the NaN sentinel (none),
not 0, because the maximum is taken over an empty collection of group sizes;
symmetrically, when every trade is classified 1, max_loss_streak of line 152
is NaN rather than 0. -/
theorem empty_streak_nan (xs : List (Option ℚ)) (h : xs ≠ []) :
    ((∀ x ∈ xs, classify x = -1) → max_win_streak xs = none)
  ∧ ((∀ x ∈ xs, classify x = 1) → max_loss_streak xs = none) := by
  constructor
  · intro hall
    unfold max_win_streak
    have hfil : (runs (xs.map classify)).filter (fun p => p.1 == 1) = [] := by
      rw [List.filter_eq_nil_iff]
      intro p hp
      have hmem := runs_mem_fst hp
      obtain ⟨o, ho, hco⟩ := List.mem_map.mp hmem
      have : p.1 = -1 := by rw [← hco]; exact hall o ho
      rw [this]
      decide
    rw [hfil]
    rfl
  · intro hall
    unfold max_loss_streak
    have hfil : (runs (xs.map classify)).filter (fun p => p.1 == -1) = [] := by
      rw [List.filter_eq_nil_iff]
      intro p hp
      have hmem := runs_mem_fst hp
      obtain ⟨o, ho, hco⟩ := List.mem_map.mp hmem
      have : p.1 = 1 := by rw [← hco]; exact hall o ho
      rw [this]
      decide
    rw [hfil]
    rfl

/-- Witness for C9: the sequence with values -1 and null has no winning trade
and its max_win_streak is NaN (none). -/
theorem empty_streak_nan_witness :
    max_win_streak [some (-1 : ℚ), none] = none :=
  (empty_streak_nan [some (-1 : ℚ), none] (by decide)).1 (by with_unfolding_all decide)

/-- C10: for a sequence with at least one losing trade and no winning trade,
the profit factor of line 147 is the NaN sentinel (none): the mean over the
empty winner set is NaN and the division propagates it, so a NaN profit
factor does not by itself mean that no losses were observed. -/
theorem profit_factor_nan (xs : List (Option ℚ))
    (h1 : ∃ v : ℚ, some v ∈ xs ∧ v < 0)
    (h2 : ¬ ∃ v : ℚ, some v ∈ xs ∧ 0 < v) :
    profit_factor xs = none := by
  have hlos : losers xs ≠ [] := by
    obtain ⟨v, hv, hvneg⟩ := h1
    intro hnil
    have hmem : v ∈ losers xs := by
      unfold losers
      rw [List.mem_filter]
      exact ⟨mem_validVals.mpr hv, by simpa using hvneg⟩
    rw [hnil] at hmem
    simp at hmem
  have hwin : winners xs = [] := by
    unfold winners
    rw [List.filter_eq_nil_iff]
    intro v hv hpos
    exact h2 ⟨v, mem_validVals.mp hv, by simpa using hpos⟩
  unfold profit_factor
  rw [if_neg hlos, hwin]
  show (match listMeanQ [], listMeanQ (losers xs) with
        | some a, some b => some (a / (-b))
        | _, _ => none) = none
  cases listMeanQ (losers xs) <;> rfl

/-- Witness for C10: the single-record sequence with profit_loss -3 has a
loser, no winner, and profit factor NaN (none). -/
theorem profit_factor_nan_witness : profit_factor [some (-3 : ℚ)] = none :=
  profit_factor_nan [some (-3 : ℚ)]
    ⟨-3, by with_unfolding_all decide⟩
    (by
      rintro ⟨v, hv, hpos⟩
      simp only [List.mem_singleton, Option.some_inj] at hv
      rw [hv] at hpos
      norm_num at hpos)

theorem mem_insertByTime {u t : Trade} :
    ∀ {l : List Trade}, u ∈ insertByTime t l ↔ u = t ∨ u ∈ l := by
  intro l
  induction l with
  | nil => simp [insertByTime]
  | cons x xs ih =>
    unfold insertByTime
    by_cases hc : t.time.getD 0 ≤ x.time.getD 0
    · rw [if_pos hc]
      simp [List.mem_cons]
    · rw [if_neg hc]
      simp only [List.mem_cons, ih]
      tauto

theorem mem_sortByTime {u : Trade} :
    ∀ {l : List Trade}, u ∈ sortByTime l ↔ u ∈ l := by
  intro l
  induction l with
  | nil => simp [sortByTime]
  | cons x xs ih =>
    unfold sortByTime
    rw [mem_insertByTime]
    simp [ih]

theorem contains_iff_mem {l : List String} {a : String} : l.contains a = true ↔ a ∈ l := by
  simp [List.contains, List.elem_iff]

theorem except_eq_ok {ε α : Type} (e : Except ε α) (d : α) (h : e.isOk = true) :
    e = .ok (e.toOption.getD d) := by
  cases e with
  | error err => simp [Except.isOk, Except.toBool] at h
  | ok a => rfl

theorem headD_mem {α : Type} (l : List α) (d : α) (h : l ≠ []) : l.headD d ∈ l := by
  cases l with
  | nil => exact absurd rfl h
  | cons x t => exact List.mem_cons_self _ _

/-- C4: every record of a successful normalization run has a non-null
timestamp, a non-null price and a side that is Buy or Sell: the coercions of
lines 116-118 leave none on failures, the dict map of line 117 sends anything
but B and S to none, and the dropna of line 122 removes every row where one
of the three is none. -/
theorem clean_invariant (files : List (List String)) (ts : List Trade) (t : Trade)
    (hok : load_and_clean_data files = .ok ts) (ht : t ∈ ts) :
    t.time.isSome = true ∧ t.price.isSome = true ∧
    (t.side = some Side.Buy ∨ t.side = some Side.Sell) := by
  simp only [load_and_clean_data] at hok
  split at hok
  · exact Except.noConfusion hok
  · split at hok
    · split at hok
      · rw [Except.ok.injEq] at hok
        subst hok
        have hmem := mem_sortByTime.mp ht
        have hkeep := (List.mem_filter.mp hmem).2
        unfold keepRow at hkeep
        rw [Bool.and_eq_true, Bool.and_eq_true] at hkeep
        obtain ⟨⟨htime, hprice⟩, hside⟩ := hkeep
        refine ⟨htime, hprice, ?_⟩
        obtain ⟨s, hs⟩ := Option.isSome_iff_exists.mp hside
        cases s with
        | Buy => exact Or.inl hs
        | Sell => exact Or.inr hs
      · exact Except.noConfusion hok
    · exact Except.noConfusion hok

/-- Witness for C4: the single uploaded file fileA yields a non-empty run
whose first record has non-null timestamp and price and a Buy or Sell side. -/
theorem clean_invariant_witness :
    ((okTrades [fileA]).headD dummyTrade).time.isSome = true ∧
    ((okTrades [fileA]).headD dummyTrade).price.isSome = true ∧
    (((okTrades [fileA]).headD dummyTrade).side = some Side.Buy ∨
      ((okTrades [fileA]).headD dummyTrade).side = some Side.Sell) := by
  have hok : (load_and_clean_data [fileA]).isOk = true := by decide
  have h1 : load_and_clean_data [fileA] = .ok (okTrades [fileA]) := by
    unfold okTrades
    exact except_eq_ok _ _ hok
  have hne : okTrades [fileA] ≠ [] := by decide
  exact clean_invariant [fileA] (okTrades [fileA]) _ h1 (headD_mem _ _ hne)

/-- C7 (amended): given that section extraction succeeds on every file, the
normalization run fails if and only if the concatenated table misses the
Status column or one of the eight required source columns; the projection of
lines 111-114 happens after the concat of line 110, so a single file whose
own header lacks a required column does not fail the run when another file
supplies that column. -/
theorem schema_spec (files : List (List String)) (tables : List Table)
    (hex : extractAll files = .ok tables) :
    (load_and_clean_data files).isOk = false ↔
      ("Status" ∉ tableCols tables ∨ ∃ c ∈ required_cols, c ∉ tableCols tables) := by
  simp only [load_and_clean_data]
  rw [hex]
  dsimp only
  by_cases h1 : (tableCols tables).contains "Status" = true
  · rw [if_pos h1]
    by_cases h2 : required_cols.all (fun c => (tableCols tables).contains c) = true
    · rw [if_pos h2]
      constructor
      · intro hcon
        exact absurd hcon (by simp [Except.isOk, Except.toBool])
      · rintro (hst | ⟨c, hc, hcmem⟩)
        · exact absurd (contains_iff_mem.mp h1) hst
        · exact absurd (contains_iff_mem.mp (List.all_eq_true.mp h2 c hc)) hcmem
    · rw [if_neg h2]
      constructor
      · intro _
        right
        by_contra hcon
        push_neg at hcon
        apply h2
        rw [List.all_eq_true]
        intro c hc
        exact contains_iff_mem.mpr (hcon c hc)
      · intro _
        rfl
  · rw [if_neg h1]
    constructor
    · intro _
      left
      intro hmem
      exact h1 (contains_iff_mem.mpr hmem)
    · intro _
      rfl

/-- C7 counterexample: fileB extracts with a header that lacks the required
column Closed Profit/Loss, yet normalizing fileA and fileB together succeeds
rather than failing the run, because fileA supplies every required column to
the concatenated table. -/
theorem schema_counterexample :
    extract_completed_orders fileB =
      .ok ⟨["Account", "Buy/Sell"], [[("Account", "A2"), ("Buy/Sell", "B")]]⟩ ∧
    "Closed Profit/Loss" ∉ (["Account", "Buy/Sell"] : List String) ∧
    (load_and_clean_data [fileA, fileB]).isOk = true := by
  refine ⟨by decide, by decide, by decide⟩

/-- Witness for C7: uploading fileB alone fails the run, since its
concatenated table lacks the Status column. -/
theorem schema_spec_witness : (load_and_clean_data [fileB]).isOk = false :=
  (schema_spec [fileB]
    [⟨["Account", "Buy/Sell"], [[("Account", "A2"), ("Buy/Sell", "B")]]⟩]
    (by decide)).mpr (Or.inl (by decide))

/-- C8: normalization is a deterministic pure function of the decoded input
file lines: the embedding load_and_clean_data is a function, so two runs on
equal file sets give equal canonical sequences; nothing in lines 94-124 reads
state outside the file contents. -/
theorem normalize_deterministic (files1 files2 : List (List String))
    (h : files1 = files2) :
    load_and_clean_data files1 = load_and_clean_data files2 := by
  rw [h]

/-- Witness for C8: two runs on the same single-file set coincide. -/
theorem normalize_deterministic_witness :
    load_and_clean_data [fileA] = load_and_clean_data [fileA] :=
  normalize_deterministic [fileA] [fileA] rfl

theorem insertByTime_pairwise (t : Trade) :
    ∀ l : List Trade,
      List.Pairwise (fun a b : Trade => a.time.getD 0 ≤ b.time.getD 0) l →
      List.Pairwise (fun a b : Trade => a.time.getD 0 ≤ b.time.getD 0) (insertByTime t l) := by
  intro l
  induction l with
  | nil => intro _; exact List.pairwise_cons.mpr ⟨by simp, List.Pairwise.nil⟩
  | cons x xs ih =>
    intro hp
    obtain ⟨hx, hxs⟩ := List.pairwise_cons.mp hp
    unfold insertByTime
    by_cases hc : t.time.getD 0 ≤ x.time.getD 0
    · rw [if_pos hc]
      refine List.pairwise_cons.mpr ⟨?_, hp⟩
      intro b hb
      rcases List.mem_cons.mp hb with heq | hbmem
      · rw [heq]; exact hc
      · exact le_trans hc (hx b hbmem)
    · rw [if_neg hc]
      refine List.pairwise_cons.mpr ⟨?_, ih hxs⟩
      intro b hb
      rcases mem_insertByTime.mp hb with heq | hbmem
      · rw [heq]; omega
      · exact hx b hbmem

/-- Order half of the spec sort invariant: the embedded sort produces a list
that is pairwise ascending in timestamp. The tie-order half (stability) is a
property of numpy quicksort inside sort_values and is not modelled here. -/
theorem sortByTime_sorted :
    ∀ l : List Trade,
      List.Pairwise (fun a b : Trade => a.time.getD 0 ≤ b.time.getD 0) (sortByTime l) := by
  intro l
  induction l with
  | nil => exact List.Pairwise.nil
  | cons x xs ih => exact insertByTime_pairwise x (sortByTime xs) ih
